import Mathlib

/-!
Verification of `env_helper.py`: a utility that parses, compares and
reformats `.env`-style key/value files.

The embedding works over `List Char`: a file is a list of lines, a line a
list of characters.  Python's `str.strip`, `str.split('=', 1)`,
`str.startswith('#')`, `sorted`, dict insertion and lookup are modelled by
explicit recursive functions below; each definition mirrors the
corresponding place in the source.
-/

namespace EnvHelper

/-- A line (or any string) is a list of characters. -/
abbrev Line := List Char

/-- Whitespace characters removed by Python's `str.strip()` (ASCII range). -/
def isWs (c : Char) : Bool :=
  c == ' ' || c == '\t' || c == '\n' || c == '\r' || c == '\x0b' || c == '\x0c'

/-- Python's `str.strip()`: drop whitespace from both ends. -/
def pyStrip (l : Line) : Line :=
  ((l.dropWhile isWs).reverse.dropWhile isWs).reverse

/-- `EnvEntry` from the source: key, value and the attached comment lines. -/
structure EnvEntry where
  key : Line
  value : Line
  comments : List Line
deriving DecidableEq, Repr

/-- `EnvEntry.prefix` from the source:
`self.key.split('_')[0] if '_' in self.key else self.key`. -/
def prefixOfKey (k : Line) : Line :=
  if '_' ∈ k then k.takeWhile (· != '_') else k

/-- `EnvFile.entries` is a Python dict; we model it as an association list
whose insert (`dinsert`) overwrites in place, exactly like dict assignment. -/
abbrev Dict := List (Line × EnvEntry)

/-- Python dict assignment `entries[key] = e`: overwrite in place if the key
is present, otherwise append at the end. -/
def dinsert : Dict → Line → EnvEntry → Dict
  | [], k, e => [(k, e)]
  | (k', e') :: d, k, e =>
    if k' = k then (k, e) :: d else (k', e') :: dinsert d k e

/-- Python dict lookup `entries[key]` (as an `Option`). -/
def dlookup : Dict → Line → Option EnvEntry
  | [], _ => none
  | (k', e) :: d, k => if k' = k then some e else dlookup d k

/-- The keys of the dict, in insertion order (`entries.keys()`). -/
def keysOf (d : Dict) : List Line :=
  d.map Prod.fst

/-- The key of an assignment line: `line.split('=', 1)[0].strip()` applied to
the stripped line. -/
def keyOf (raw : Line) : Line :=
  pyStrip ((pyStrip raw).takeWhile (· != '='))

/-- The value of an assignment line: `line.split('=', 1)[1].strip()` applied
to the stripped line (everything after the first `=`). -/
def valOf (raw : Line) : Line :=
  pyStrip (((pyStrip raw).dropWhile (· != '=')).tail)

/-- One iteration of the loop in `EnvFile.read`.  The state is the pair
(pending-comments buffer `current_comments`, dict `self.entries`). -/
def parseStep (st : List Line × Dict) (raw : Line) : List Line × Dict :=
  let line := pyStrip raw
  if line = [] then ([], st.2)
  else if line.head? = some '#' then (st.1 ++ [line], st.2)
  else if '=' ∈ line then
    ([], dinsert st.2 (keyOf raw) ⟨keyOf raw, valOf raw, st.1⟩)
  else st

/-- The loop of `EnvFile.read` over a list of lines. -/
def parseList : List Line × Dict → List Line → List Line × Dict
  | st, [] => st
  | st, l :: ls => parseList (parseStep st l) ls

/-- `EnvFile.read` on a list of lines, starting from an empty buffer and an
empty dict; the result is the populated `entries` dict. -/
def parseD (lines : List Line) : Dict :=
  (parseList ([], []) lines).2

/-- Python's `sorted` on a list of strings (lexicographic by code point).
On the duplicate-free key lists produced by a dict this is exactly
`sorted(keys)`. -/
def sortKeys (ks : List Line) : List Line :=
  ks.insertionSort (· ≤ ·)

/-- `EnvFile.get_sorted_entries`:
`[self.entries[key] for key in sorted(self.entries.keys())]`. -/
def getSortedEntries (d : Dict) : List EnvEntry :=
  (sortKeys (keysOf d)).filterMap (dlookup d)

/-- `'\n'.join(lines)`. -/
def joinNL : List Line → Line
  | [] => []
  | [l] => l
  | l :: ls => l ++ '\n' :: joinNL ls

/-- The loop of `EnvFormatter.format`: the first argument is
`current_prefix` (an `Option`, `none` standing for Python's `None`). -/
def formatLoop : Option Line → List EnvEntry → List Line
  | _, [] => []
  | currentPref, e :: es =>
    ((match currentPref with
      | some p => if prefixOfKey e.key ≠ p then [([] : Line)] else []
      | none => []) ++
     (if e.comments ≠ [] then e.comments else []) ++
     [e.key ++ '=' :: e.value]) ++ formatLoop (some (prefixOfKey e.key)) es

/-- `EnvFormatter.format`: walk the sorted entries, then join with `'\n'`. -/
def format (d : Dict) : Line :=
  joinNL (formatLoop none (getSortedEntries d))

/-- `EnvComparator.compare`.  `different_values` is a dict built in sorted
key order, modelled as a list of `(key, (value1, value2))` in that order. -/
def compare (d1 d2 : Dict) : List Line × List Line × List (Line × Line × Line) :=
  let keys1 := keysOf d1
  let keys2 := keysOf d2
  let uniqueToFile1 := sortKeys (keys1.filter (fun k => decide (¬ k ∈ keys2)))
  let uniqueToFile2 := sortKeys (keys2.filter (fun k => decide (¬ k ∈ keys1)))
  let commonKeys := keys1.filter (fun k => decide (k ∈ keys2))
  let differentValues := (sortKeys commonKeys).filterMap (fun k =>
    match dlookup d1 k, dlookup d2 k with
    | some e1, some e2 =>
      if e1.value ≠ e2.value then some (k, e1.value, e2.value) else none
    | _, _ => none)
  (uniqueToFile1, uniqueToFile2, differentValues)

/-- Split a character stream at `'\n'` (never returns `[]`). -/
def splitNL : Line → List Line
  | [] => [[]]
  | c :: rest =>
    if c = '\n' then [] :: splitNL rest
    else
      match splitNL rest with
      | [] => [[c]]
      | a :: as => (c :: a) :: as

/-- The lines Python's file iteration yields for a character stream that does
not end in a newline (an empty file yields no lines). -/
def linesOf (l : Line) : List Line :=
  if l = [] then [] else splitNL l

/-- Classification used by `EnvFile.read`: a blank (whitespace-only) line. -/
def BlankLine (l : Line) : Prop := pyStrip l = []

/-- A comment line: non-blank and starting (after the strip) with `#`. -/
def CommentLine (l : Line) : Prop :=
  pyStrip l ≠ [] ∧ (pyStrip l).head? = some '#'

/-- An assignment line: non-blank, not a comment, containing `=`. -/
def AssignLine (l : Line) : Prop :=
  pyStrip l ≠ [] ∧ (pyStrip l).head? ≠ some '#' ∧ '=' ∈ pyStrip l

/-- A silently ignored line: non-blank, not a comment, without `=`. -/
def IgnoredLine (l : Line) : Prop :=
  pyStrip l ≠ [] ∧ (pyStrip l).head? ≠ some '#' ∧ '=' ∉ pyStrip l

/-- The key/value produced for a line, `none` when the line stores nothing
(the same branch structure as `parseStep`). -/
def lineKV (raw : Line) : Option (Line × Line) :=
  let line := pyStrip raw
  if line = [] then none
  else if line.head? = some '#' then none
  else if '=' ∈ line then some (keyOf raw, valOf raw)
  else none

/-- Shape of every key the parser stores: already stripped, free of `=`,
not starting with `#`. -/
def GoodKeyP (k : Line) : Prop :=
  pyStrip k = k ∧ '=' ∉ k ∧ k.head? ≠ some '#'

/-- Shape of every stored comment line: stripped and starting with `#`. -/
def GoodCommentP (c : Line) : Prop :=
  pyStrip c = c ∧ c.head? = some '#'

/-- Shape of every stored entry. -/
def GoodEntryP (e : EnvEntry) : Prop :=
  GoodKeyP e.key ∧ pyStrip e.value = e.value ∧ ∀ c ∈ e.comments, GoodCommentP c

/-- A character list without newline characters. -/
def NoNL (l : Line) : Prop := '\n' ∉ l

/-- An entry none of whose parts contains a newline. -/
def NoNLEntry (e : EnvEntry) : Prop :=
  NoNL e.key ∧ NoNL e.value ∧ ∀ c ∈ e.comments, NoNL c

/-- Every stored entry's `key` field equals its dict key. -/
def KeysAligned (d : Dict) : Prop := ∀ p ∈ d, (p.2).key = p.1

/-- Spec-side wording of the grouping token: the text of the key before the
first underscore (the whole key when it has no underscore). -/
def specPrefixOfKey (k : Line) : Line := k.takeWhile (· != '_')

/-- Spec-side restatement of the Formatter walk (spec §4.3 steps 2-4): walk
the entries keeping the previous entry's grouping token; emit one blank line
before an entry whose token differs from the previous one (when a previous
entry exists), then the entry's comment lines verbatim, then `key=value`. -/
def specFormatWalk : Option Line → List EnvEntry → List Line
  | _, [] => []
  | prev, e :: es =>
    (match prev with
     | some p => if specPrefixOfKey e.key ≠ p then [([] : Line)] else []
     | none => []) ++
    e.comments ++ (e.key ++ '=' :: e.value) :: specFormatWalk (some (specPrefixOfKey e.key)) es

/-- Spec-side emitted lines for a list of entries. -/
def specFormatLines (es : List EnvEntry) : List Line := specFormatWalk none es

/-- One call of Python's `print`: the argument followed by a newline. -/
def printLn (s : Line) : Line := s ++ ['\n']

/-- `"Error: One or both files do not exist"` (compare mode). -/
def msgCompareMissing : Line := "Error: One or both files do not exist".toList

/-- `f"Error: File {file_path} does not exist"` (format mode). -/
def msgFormatMissing (f : Line) : Line :=
  "Error: File ".toList ++ f ++ " does not exist".toList

/-- `pat` occurs as a contiguous substring of the second argument. -/
def containsSub (pat : Line) : Line → Bool
  | [] => pat.isEmpty
  | c :: t => pat.isPrefixOf (c :: t) || containsSub pat t

/-- The file system visible to `main`: which paths exist and the lines a
path's content yields. -/
structure FS where
  pathExists : Line → Bool
  fileContent : Line → List Line

/-- The two mutually exclusive invocation modes of `main`. -/
inductive Mode where
  | compareFiles : Line → Line → Mode
  | formatFile : Line → Mode

/-- Observable outcome of one run of `main`: exit status and the two output
streams. -/
structure Outcome where
  exitCode : Nat
  stdoutStream : Line
  stderrStream : Line
deriving DecidableEq

/-- Concatenate printed fragments. -/
def joinAll (ls : List Line) : Line := ls.foldr (· ++ ·) []

/-- The stdout produced by compare mode's print statements. -/
def compareOutput (f1 f2 : Line) (r : List Line × List Line × List (Line × Line × Line)) :
    Line :=
  printLn ("=== Keys unique to ".toList ++ f1 ++ " ===".toList) ++
  joinAll (r.1.map printLn) ++
  printLn ('\n' :: ("=== Keys unique to ".toList ++ f2 ++ " ===".toList)) ++
  joinAll (r.2.1.map printLn) ++
  printLn ('\n' :: "=== Keys with different values ===".toList) ++
  joinAll (r.2.2.map (fun kv =>
    printLn (kv.1 ++ [':']) ++
    printLn ("  ".toList ++ f1 ++ ": ".toList ++ kv.2.1) ++
    printLn ("  ".toList ++ f2 ++ ": ".toList ++ kv.2.2)))

/-- `main`: existence checks, then parse/compare/format and print, mirroring
the driver's two branches. -/
def runMain (fs : FS) : Mode → Outcome
  | Mode.compareFiles f1 f2 =>
    if fs.pathExists f1 = false ∨ fs.pathExists f2 = false then
      { exitCode := 1, stdoutStream := [], stderrStream := printLn msgCompareMissing }
    else
      { exitCode := 0,
        stdoutStream := compareOutput f1 f2
          (compare (parseD (fs.fileContent f1)) (parseD (fs.fileContent f2))),
        stderrStream := [] }
  | Mode.formatFile f =>
    if fs.pathExists f = false then
      { exitCode := 1, stdoutStream := [], stderrStream := printLn (msgFormatMissing f) }
    else
      { exitCode := 0, stdoutStream := printLn (format (parseD (fs.fileContent f))),
        stderrStream := [] }

instance instDecBlankLine (l : Line) : Decidable (BlankLine l) :=
  decidable_of_iff (pyStrip l = []) Iff.rfl

instance instDecCommentLine (l : Line) : Decidable (CommentLine l) :=
  decidable_of_iff (pyStrip l ≠ [] ∧ (pyStrip l).head? = some '#') Iff.rfl

instance instDecAssignLine (l : Line) : Decidable (AssignLine l) :=
  decidable_of_iff (pyStrip l ≠ [] ∧ (pyStrip l).head? ≠ some '#' ∧ '=' ∈ pyStrip l) Iff.rfl

instance instDecIgnoredLine (l : Line) : Decidable (IgnoredLine l) :=
  decidable_of_iff (pyStrip l ≠ [] ∧ (pyStrip l).head? ≠ some '#' ∧ '=' ∉ pyStrip l) Iff.rfl

instance instDecNoNL (l : Line) : Decidable (NoNL l) :=
  decidable_of_iff ('\n' ∉ l) Iff.rfl

instance instDecGoodKeyP (k : Line) : Decidable (GoodKeyP k) :=
  decidable_of_iff (pyStrip k = k ∧ '=' ∉ k ∧ k.head? ≠ some '#') Iff.rfl

instance instDecGoodCommentP (c : Line) : Decidable (GoodCommentP c) :=
  decidable_of_iff (pyStrip c = c ∧ c.head? = some '#') Iff.rfl

/-! ### Lemmas about `pyStrip` -/

theorem head?_dropWhile_false {α : Type} {p : α → Bool} {l : List α} {c : α}
    (h : (l.dropWhile p).head? = some c) : p c = false := by
  have hm := List.head?_dropWhile_not p l
  rw [h] at hm
  exact hm

theorem dropWhile_eq_self_of_head {α : Type} {p : α → Bool} {l : List α}
    (h : ∀ c, l.head? = some c → p c = false) : l.dropWhile p = l := by
  cases l with
  | nil => rfl
  | cons a t => exact List.dropWhile_cons_of_neg (by simp [h a rfl])

theorem head_false_of_dropWhile_eq_self {α : Type} {p : α → Bool} {l : List α} {c : α}
    (h : l.dropWhile p = l) (hc : l.head? = some c) : p c = false := by
  apply head?_dropWhile_false (p := p) (l := l)
  rw [h]
  exact hc

theorem dropWhile_dropWhile_eq {α : Type} {p : α → Bool} (l : List α) :
    (l.dropWhile p).dropWhile p = l.dropWhile p :=
  dropWhile_eq_self_of_head (fun _ hc => head?_dropWhile_false hc)

theorem getLast?_of_suffix {α : Type} {l₁ l₂ : List α} (h : l₁ <:+ l₂) {c : α}
    (hc : l₁.getLast? = some c) : l₂.getLast? = some c := by
  obtain ⟨t, rfl⟩ := h
  rw [List.getLast?_append, hc]
  rfl

theorem head?_pyStrip {l : List Char} {c : Char}
    (h : (pyStrip l).head? = some c) : (l.dropWhile isWs).head? = some c := by
  unfold pyStrip at h
  rw [List.head?_reverse] at h
  have hs := List.dropWhile_suffix (l := (l.dropWhile isWs).reverse) isWs
  have h2 := getLast?_of_suffix hs h
  rwa [List.getLast?_reverse] at h2

theorem pyStrip_head_not_ws {l : List Char} {c : Char}
    (h : (pyStrip l).head? = some c) : isWs c = false :=
  head?_dropWhile_false (head?_pyStrip h)

theorem mem_of_mem_pyStrip {c : Char} {l : List Char} (h : c ∈ pyStrip l) : c ∈ l := by
  unfold pyStrip at h
  rw [List.mem_reverse] at h
  have h2 : c ∈ (l.dropWhile isWs).reverse := (List.dropWhile_suffix isWs).subset h
  rw [List.mem_reverse] at h2
  exact (List.dropWhile_suffix isWs).subset h2

theorem pyStrip_eq_self_iff {l : List Char} :
    pyStrip l = l ↔ l.dropWhile isWs = l ∧ l.reverse.dropWhile isWs = l.reverse := by
  constructor
  · intro h
    have hlen := congrArg List.length h
    have hlen1 : (pyStrip l).length ≤ (l.dropWhile isWs).length := by
      unfold pyStrip
      rw [List.length_reverse]
      calc ((l.dropWhile isWs).reverse.dropWhile isWs).length
          ≤ (l.dropWhile isWs).reverse.length := (List.dropWhile_suffix isWs).length_le
        _ = (l.dropWhile isWs).length := List.length_reverse _
    have hlen2 : (l.dropWhile isWs).length ≤ l.length := (List.dropWhile_suffix isWs).length_le
    have h1 : l.dropWhile isWs = l :=
      (List.dropWhile_suffix isWs).eq_of_length (by omega)
    refine ⟨h1, ?_⟩
    have h2 : (l.reverse.dropWhile isWs).reverse = l := by
      unfold pyStrip at h
      rwa [h1] at h
    calc l.reverse.dropWhile isWs
        = ((l.reverse.dropWhile isWs).reverse).reverse := (List.reverse_reverse _).symm
      _ = l.reverse := by rw [h2]
  · intro h
    unfold pyStrip
    rw [h.1, h.2, List.reverse_reverse]

theorem pyStrip_pyStrip (l : List Char) : pyStrip (pyStrip l) = pyStrip l := by
  apply pyStrip_eq_self_iff.mpr
  constructor
  · exact dropWhile_eq_self_of_head (fun _ hc => pyStrip_head_not_ws hc)
  · unfold pyStrip
    rw [List.reverse_reverse]
    exact dropWhile_dropWhile_eq _

theorem stripped_head_not_ws {k : List Char} {c : Char} (hk : pyStrip k = k)
    (hc : k.head? = some c) : isWs c = false :=
  pyStrip_head_not_ws (by rw [hk]; exact hc)

theorem stripped_getLast_not_ws {k : List Char} {c : Char} (hk : pyStrip k = k)
    (hc : k.getLast? = some c) : isWs c = false := by
  have h2 := (pyStrip_eq_self_iff.mp hk).2
  apply head_false_of_dropWhile_eq_self h2
  rw [List.head?_reverse]
  exact hc

theorem pyStrip_append_eq {k v : List Char} (hk : pyStrip k = k) (hv : pyStrip v = v) :
    pyStrip (k ++ '=' :: v) = k ++ '=' :: v := by
  apply pyStrip_eq_self_iff.mpr
  refine ⟨dropWhile_eq_self_of_head ?_, dropWhile_eq_self_of_head ?_⟩
  · intro c hc
    cases k with
    | nil =>
      simp only [List.nil_append, List.head?_cons, Option.some.injEq] at hc
      subst hc
      decide
    | cons a t =>
      simp only [List.cons_append, List.head?_cons, Option.some.injEq] at hc
      subst hc
      exact stripped_head_not_ws hk rfl
  · intro c hc
    rw [List.head?_reverse, List.getLast?_append] at hc
    cases v with
    | nil =>
      simp only [List.getLast?_singleton, Option.or_some, Option.some.injEq] at hc
      subst hc
      decide
    | cons b t =>
      rw [List.getLast?_cons_cons] at hc
      have hne : (b :: t) ≠ ([] : List Char) := List.cons_ne_nil b t
      rw [List.getLast?_eq_getLast _ hne, Option.or_some, Option.some.injEq] at hc
      exact stripped_getLast_not_ws hv (by rw [List.getLast?_eq_getLast _ hne, hc])

/-! ### Splitting an assignment line at its first `=` -/

theorem takeWhile_append_eqSign {k v : List Char} (hk : '=' ∉ k) :
    (k ++ '=' :: v).takeWhile (· != '=') = k := by
  have hpos : ∀ a ∈ k, (a != '=') = true := by
    intro a ha
    simp only [bne_iff_ne, ne_eq]
    rintro rfl
    exact hk ha
  rw [List.takeWhile_append_of_pos hpos, List.takeWhile_cons_of_neg (by simp), List.append_nil]

theorem dropWhile_append_eqSign {k v : List Char} (hk : '=' ∉ k) :
    (k ++ '=' :: v).dropWhile (· != '=') = '=' :: v := by
  have hpos : ∀ a ∈ k, (a != '=') = true := by
    intro a ha
    simp only [bne_iff_ne, ne_eq]
    rintro rfl
    exact hk ha
  rw [List.dropWhile_append_of_pos hpos, List.dropWhile_cons_of_neg (by simp)]

theorem keyOf_wellFormed {k v : List Char} (hs : pyStrip k = k) (hv : pyStrip v = v)
    (hk : '=' ∉ k) : keyOf (k ++ '=' :: v) = k := by
  unfold keyOf
  rw [pyStrip_append_eq hs hv, takeWhile_append_eqSign hk, hs]

theorem valOf_wellFormed {k v : List Char} (hs : pyStrip k = k) (hv : pyStrip v = v)
    (hk : '=' ∉ k) : valOf (k ++ '=' :: v) = v := by
  unfold valOf
  rw [pyStrip_append_eq hs hv, dropWhile_append_eqSign hk]
  simpa using hv

theorem keyOf_stripped (raw : Line) : pyStrip (keyOf raw) = keyOf raw :=
  pyStrip_pyStrip _

theorem valOf_stripped (raw : Line) : pyStrip (valOf raw) = valOf raw :=
  pyStrip_pyStrip _

theorem eqSign_not_mem_keyOf (raw : Line) : '=' ∉ keyOf raw := by
  intro hmem
  have h1 := mem_of_mem_pyStrip hmem
  exact absurd (List.mem_takeWhile_imp h1) (by simp)

theorem head?_keyOf_ne_hash {raw : Line} (hne : pyStrip raw ≠ [])
    (hh : (pyStrip raw).head? ≠ some '#') : (keyOf raw).head? ≠ some '#' := by
  intro hc
  unfold keyOf at hc
  have h1 := head?_pyStrip hc
  cases hs : pyStrip raw with
  | nil => exact hne hs
  | cons h0 s' =>
    have hhead : (pyStrip raw).head? = some h0 := by rw [hs]; rfl
    have hnws : isWs h0 = false := stripped_head_not_ws (pyStrip_pyStrip raw) hhead
    rw [hs] at h1
    by_cases he : h0 = '='
    · subst he
      rw [List.takeWhile_cons_of_neg (by simp)] at h1
      simp at h1
    · rw [List.takeWhile_cons_of_pos (by simp [he]),
        List.dropWhile_cons_of_neg (by simp [hnws])] at h1
      simp only [List.head?_cons, Option.some.injEq] at h1
      exact hh (by rw [hs, List.head?_cons, h1])

/-! ### Dict lemmas -/

theorem dlookup_dinsert (d : Dict) (k k' : Line) (e : EnvEntry) :
    dlookup (dinsert d k e) k' = if k' = k then some e else dlookup d k' := by
  induction d with
  | nil =>
    by_cases h : k' = k
    · subst h; simp [dinsert, dlookup]
    · have h' : ¬ k = k' := fun hh => h hh.symm
      simp [dinsert, dlookup, h, h']
  | cons p d ih =>
    obtain ⟨k0, e0⟩ := p
    by_cases h0 : k0 = k
    · subst h0
      by_cases h : k' = k0
      · subst h; simp [dinsert, dlookup]
      · have h' : ¬ k0 = k' := fun hh => h hh.symm
        simp [dinsert, dlookup, h, h']
    · by_cases h1 : k0 = k'
      · subst h1
        simp [dinsert, dlookup, h0]
      · simp [dinsert, dlookup, h0, h1, ih]

theorem keysOf_dinsert (d : Dict) (k : Line) (e : EnvEntry) :
    keysOf (dinsert d k e) = if k ∈ keysOf d then keysOf d else keysOf d ++ [k] := by
  induction d with
  | nil => simp [dinsert, keysOf]
  | cons p d ih =>
    obtain ⟨k0, e0⟩ := p
    by_cases h0 : k0 = k
    · subst h0
      have hstep : dinsert ((k0, e0) :: d) k0 e = (k0, e) :: d := by
        simp [dinsert]
      rw [hstep]
      have h1 : keysOf ((k0, e) :: d) = k0 :: keysOf d := rfl
      have h2 : keysOf ((k0, e0) :: d) = k0 :: keysOf d := rfl
      rw [h1, h2, if_pos (List.mem_cons_self _ _)]
    · have hstep : dinsert ((k0, e0) :: d) k e = (k0, e0) :: dinsert d k e := by
        simp only [dinsert, if_neg h0]
      rw [hstep]
      have hcons : keysOf ((k0, e0) :: dinsert d k e) = k0 :: keysOf (dinsert d k e) := rfl
      have hkeys : keysOf ((k0, e0) :: d) = k0 :: keysOf d := rfl
      rw [hcons, ih, hkeys]
      by_cases hm : k ∈ keysOf d
      · rw [if_pos hm, if_pos (List.mem_cons.mpr (Or.inr hm))]
      · rw [if_neg hm, if_neg (by
          simp only [List.mem_cons, not_or]
          exact ⟨fun hh => h0 hh.symm, hm⟩), List.cons_append]

theorem dlookup_nil (k : Line) : dlookup [] k = none := rfl

theorem dlookup_cons (k0 : Line) (e0 : EnvEntry) (d : Dict) (k : Line) :
    dlookup ((k0, e0) :: d) k = if k0 = k then some e0 else dlookup d k := rfl

theorem keysOf_nil : keysOf [] = [] := rfl

theorem keysOf_cons (p : Line × EnvEntry) (d : Dict) :
    keysOf (p :: d) = p.1 :: keysOf d := rfl

theorem dlookup_eq_none_iff (d : Dict) (k : Line) :
    dlookup d k = none ↔ k ∉ keysOf d := by
  induction d with
  | nil => simp [dlookup_nil, keysOf_nil]
  | cons p d ih =>
    obtain ⟨k0, e0⟩ := p
    rw [dlookup_cons, keysOf_cons]
    by_cases h : k0 = k
    · subst h
      simp
    · have h' : ¬ k = k0 := fun hh => h hh.symm
      simp [h, h', ih]

theorem dlookup_mem {d : Dict} {k : Line} {e : EnvEntry} (h : dlookup d k = some e) :
    (k, e) ∈ d := by
  induction d with
  | nil => rw [dlookup_nil] at h; exact absurd h (by simp)
  | cons p d ih =>
    obtain ⟨k0, e0⟩ := p
    rw [dlookup_cons] at h
    by_cases h0 : k0 = k
    · subst h0
      rw [if_pos rfl] at h
      simp only [Option.some.injEq] at h
      subst h
      exact List.mem_cons_self _ _
    · rw [if_neg h0] at h
      exact List.mem_cons_of_mem _ (ih h)

theorem mem_keysOf_of_dlookup {d : Dict} {k : Line} {e : EnvEntry}
    (h : dlookup d k = some e) : k ∈ keysOf d :=
  List.mem_map_of_mem Prod.fst (dlookup_mem h)

theorem dlookup_isSome_of_mem {d : Dict} {k : Line} (h : k ∈ keysOf d) :
    ∃ e, dlookup d k = some e := by
  cases he : dlookup d k with
  | none => exact absurd ((dlookup_eq_none_iff d k).mp he) (by simp [h])
  | some e => exact ⟨e, rfl⟩

theorem dlookup_key_eq {d : Dict} (hd : KeysAligned d) {k : Line} {e : EnvEntry}
    (h : dlookup d k = some e) : e.key = k :=
  hd (k, e) (dlookup_mem h)

theorem keysAligned_dinsert {k : Line} {e : EnvEntry} (he : e.key = k) :
    ∀ d : Dict, KeysAligned d → KeysAligned (dinsert d k e) := by
  intro d
  induction d with
  | nil =>
    intro _ p hp
    simp only [dinsert, List.mem_singleton] at hp
    subst hp
    exact he
  | cons q d ih =>
    obtain ⟨k0, e0⟩ := q
    intro hd p hp
    by_cases h0 : k0 = k
    · subst h0
      rw [show dinsert ((k0, e0) :: d) k0 e = (k0, e) :: d from by simp [dinsert]] at hp
      rcases List.mem_cons.mp hp with h | h
      · subst h; exact he
      · exact hd p (List.mem_cons_of_mem _ h)
    · rw [show dinsert ((k0, e0) :: d) k e = (k0, e0) :: dinsert d k e from by
        simp [dinsert, h0]] at hp
      rcases List.mem_cons.mp hp with h | h
      · subst h
        exact hd (k0, e0) (List.mem_cons_self _ _)
      · exact ih (fun q hq => hd q (List.mem_cons_of_mem _ hq)) p h

theorem nodup_keysOf_dinsert {d : Dict} (h : (keysOf d).Nodup) (k : Line) (e : EnvEntry) :
    (keysOf (dinsert d k e)).Nodup := by
  rw [keysOf_dinsert]
  by_cases hm : k ∈ keysOf d
  · rw [if_pos hm]; exact h
  · rw [if_neg hm]
    simp [List.nodup_append, h, hm]

/-! ### The four branches of `parseStep` -/

theorem parseStep_blank {raw : Line} (st : List Line × Dict) (h : pyStrip raw = []) :
    parseStep st raw = ([], st.2) := by
  simp [parseStep, h]

theorem parseStep_comment {raw : Line} (st : List Line × Dict) (h1 : pyStrip raw ≠ [])
    (h2 : (pyStrip raw).head? = some '#') :
    parseStep st raw = (st.1 ++ [pyStrip raw], st.2) := by
  simp [parseStep, h1, h2]

theorem parseStep_assign {raw : Line} (st : List Line × Dict) (h1 : pyStrip raw ≠ [])
    (h2 : (pyStrip raw).head? ≠ some '#') (h3 : '=' ∈ pyStrip raw) :
    parseStep st raw = ([], dinsert st.2 (keyOf raw) ⟨keyOf raw, valOf raw, st.1⟩) := by
  simp [parseStep, h1, h2, h3]

theorem parseStep_skip {raw : Line} (st : List Line × Dict) (h1 : pyStrip raw ≠ [])
    (h2 : (pyStrip raw).head? ≠ some '#') (h3 : '=' ∉ pyStrip raw) :
    parseStep st raw = st := by
  simp [parseStep, h1, h2, h3]

theorem parseList_append (st : List Line × Dict) (L1 L2 : List Line) :
    parseList st (L1 ++ L2) = parseList (parseList st L1) L2 := by
  induction L1 generalizing st with
  | nil => rfl
  | cons l L1 ih =>
    simp only [List.cons_append, parseList]
    exact ih _

theorem mem_dinsert {d : Dict} {k : Line} {e : EnvEntry} {p : Line × EnvEntry}
    (hp : p ∈ dinsert d k e) : p = (k, e) ∨ p ∈ d := by
  induction d with
  | nil =>
    simp only [dinsert, List.mem_singleton] at hp
    exact Or.inl hp
  | cons q d ih =>
    obtain ⟨k0, e0⟩ := q
    by_cases h0 : k0 = k
    · subst h0
      rw [show dinsert ((k0, e0) :: d) k0 e = (k0, e) :: d from by simp [dinsert]] at hp
      rcases List.mem_cons.mp hp with h | h
      · exact Or.inl h
      · exact Or.inr (List.mem_cons_of_mem _ h)
    · rw [show dinsert ((k0, e0) :: d) k e = (k0, e0) :: dinsert d k e from by
        simp [dinsert, h0]] at hp
      rcases List.mem_cons.mp hp with h | h
      · exact Or.inr (h ▸ List.mem_cons_self _ _)
      · rcases ih h with h2 | h2
        · exact Or.inl h2
        · exact Or.inr (List.mem_cons_of_mem _ h2)

theorem mem_of_mem_keyOf {c : Char} {raw : Line} (h : c ∈ keyOf raw) : c ∈ raw := by
  have h1 := mem_of_mem_pyStrip h
  have h2 := (List.takeWhile_sublist (· != '=')).subset h1
  exact mem_of_mem_pyStrip h2

theorem mem_of_mem_valOf {c : Char} {raw : Line} (h : c ∈ valOf raw) : c ∈ raw := by
  have h1 := mem_of_mem_pyStrip h
  have h2 := (List.tail_sublist _).subset h1
  have h3 := (List.dropWhile_sublist (· != '=')).subset h2
  exact mem_of_mem_pyStrip h3

/-! ### Invariants of `EnvFile.read` -/

theorem parseStep_inv {st : List Line × Dict} (raw : Line)
    (h1 : ∀ c ∈ st.1, GoodCommentP c) (h2 : ∀ p ∈ st.2, GoodEntryP p.2)
    (h3 : (keysOf st.2).Nodup) (h4 : KeysAligned st.2) :
    (∀ c ∈ (parseStep st raw).1, GoodCommentP c) ∧
    (∀ p ∈ (parseStep st raw).2, GoodEntryP p.2) ∧
    ((keysOf (parseStep st raw).2).Nodup ∧ KeysAligned (parseStep st raw).2) := by
  by_cases hb : pyStrip raw = []
  · rw [parseStep_blank st hb]
    exact ⟨by simp, h2, h3, h4⟩
  · by_cases hc : (pyStrip raw).head? = some '#'
    · rw [parseStep_comment st hb hc]
      refine ⟨?_, h2, h3, h4⟩
      intro c hcm
      rcases List.mem_append.mp hcm with h | h
      · exact h1 c h
      · rw [List.mem_singleton] at h
        subst h
        exact ⟨pyStrip_pyStrip raw, hc⟩
    · by_cases ha : '=' ∈ pyStrip raw
      · rw [parseStep_assign st hb hc ha]
        refine ⟨by simp, ?_, ?_, ?_⟩
        · intro p hp
          rcases mem_dinsert hp with h | h
          · subst h
            exact ⟨⟨keyOf_stripped raw, eqSign_not_mem_keyOf raw,
              head?_keyOf_ne_hash hb hc⟩, valOf_stripped raw, h1⟩
          · exact h2 p h
        · exact nodup_keysOf_dinsert h3 _ _
        · exact keysAligned_dinsert (k := keyOf raw)
            (e := ⟨keyOf raw, valOf raw, st.1⟩) rfl st.2 h4
      · rw [parseStep_skip st hb hc ha]
        exact ⟨h1, h2, h3, h4⟩

theorem parseList_inv (L : List Line) : ∀ st : List Line × Dict,
    (∀ c ∈ st.1, GoodCommentP c) → (∀ p ∈ st.2, GoodEntryP p.2) →
    (keysOf st.2).Nodup → KeysAligned st.2 →
    (∀ c ∈ (parseList st L).1, GoodCommentP c) ∧
    (∀ p ∈ (parseList st L).2, GoodEntryP p.2) ∧
    ((keysOf (parseList st L).2).Nodup ∧ KeysAligned (parseList st L).2) := by
  induction L with
  | nil => intro st h1 h2 h3 h4; exact ⟨h1, h2, h3, h4⟩
  | cons l L ih =>
    intro st h1 h2 h3 h4
    obtain ⟨g1, g2, g3, g4⟩ := parseStep_inv l h1 h2 h3 h4
    exact ih (parseStep st l) g1 g2 g3 g4

theorem parseD_good {lines : List Line} {p : Line × EnvEntry} (hp : p ∈ parseD lines) :
    GoodEntryP p.2 :=
  (parseList_inv lines ([], []) (by simp) (by simp) (by simp [keysOf_nil])
    (by intro q hq; simp at hq)).2.1 p hp

theorem parseD_nodup (lines : List Line) : (keysOf (parseD lines)).Nodup :=
  (parseList_inv lines ([], []) (by simp) (by simp) (by simp [keysOf_nil])
    (by intro q hq; simp at hq)).2.2.1

theorem parseD_aligned (lines : List Line) : KeysAligned (parseD lines) :=
  (parseList_inv lines ([], []) (by simp) (by simp) (by simp [keysOf_nil])
    (by intro q hq; simp at hq)).2.2.2

/-! ### The value stored for a key is the one of its last assignment line -/

theorem lineKV_none_of_blank {l : Line} (hb : pyStrip l = []) : lineKV l = none := by
  simp [lineKV, hb]

theorem lineKV_none_of_comment {l : Line} (hb : pyStrip l ≠ [])
    (hc : (pyStrip l).head? = some '#') : lineKV l = none := by
  simp [lineKV, hb, hc]

theorem lineKV_none_of_skip {l : Line} (hb : pyStrip l ≠ [])
    (hc : (pyStrip l).head? ≠ some '#') (ha : '=' ∉ pyStrip l) : lineKV l = none := by
  simp [lineKV, hb, hc, ha]

theorem lineKV_of_assign {l : Line} (hb : pyStrip l ≠ [])
    (hc : (pyStrip l).head? ≠ some '#') (ha : '=' ∈ pyStrip l) :
    lineKV l = some (keyOf l, valOf l) := by
  simp [lineKV, hb, hc, ha]

theorem dlookup_parseList_eq (L : List Line) : ∀ st : List Line × Dict, ∀ k : Line,
    (dlookup (parseList st L).2 k).map EnvEntry.value =
      (((L.filterMap lineKV).reverse.find? (fun q => decide (q.1 = k))).map Prod.snd).or
        ((dlookup st.2 k).map EnvEntry.value) := by
  induction L with
  | nil =>
    intro st k
    simp [parseList]
  | cons l L ih =>
    intro st k
    rw [show parseList st (l :: L) = parseList (parseStep st l) L from rfl, ih]
    by_cases hb : pyStrip l = []
    · rw [parseStep_blank st hb,
        show (l :: L).filterMap lineKV = L.filterMap lineKV from by
          simp [List.filterMap_cons, lineKV_none_of_blank hb]]
    · by_cases hc : (pyStrip l).head? = some '#'
      · rw [parseStep_comment st hb hc,
          show (l :: L).filterMap lineKV = L.filterMap lineKV from by
            simp [List.filterMap_cons, lineKV_none_of_comment hb hc]]
      · by_cases ha : '=' ∈ pyStrip l
        · rw [parseStep_assign st hb hc ha,
            show (l :: L).filterMap lineKV = (keyOf l, valOf l) :: L.filterMap lineKV from by
              simp [List.filterMap_cons, lineKV_of_assign hb hc ha],
            List.reverse_cons, List.find?_append]
          have hinner : ((List.find? (fun q => decide (q.1 = k)) [(keyOf l, valOf l)]).map
              Prod.snd).or ((dlookup st.2 k).map EnvEntry.value) =
              (dlookup (dinsert st.2 (keyOf l) ⟨keyOf l, valOf l, st.1⟩) k).map
                EnvEntry.value := by
            rw [dlookup_dinsert]
            by_cases hk : keyOf l = k
            · subst hk
              simp [List.find?]
            · have hk' : ¬ k = keyOf l := fun hh => hk hh.symm
              simp [List.find?, hk, hk']
          cases hA : (L.filterMap lineKV).reverse.find? (fun q => decide (q.1 = k)) with
          | some q => simp
          | none => simp [← hinner]
        · rw [parseStep_skip st hb hc ha,
            show (l :: L).filterMap lineKV = L.filterMap lineKV from by
              simp [List.filterMap_cons, lineKV_none_of_skip hb hc ha]]

theorem dlookup_parseD_eq (lines : List Line) (k : Line) :
    (dlookup (parseD lines) k).map EnvEntry.value =
      ((lines.filterMap lineKV).reverse.find? (fun q => decide (q.1 = k))).map Prod.snd := by
  unfold parseD
  rw [dlookup_parseList_eq]
  simp [dlookup_nil]

theorem lineKV_some_elim {x k v : Line} (hx : lineKV x = some (k, v)) :
    pyStrip x ≠ [] ∧ (pyStrip x).head? ≠ some '#' ∧ '=' ∈ pyStrip x ∧
      keyOf x = k ∧ valOf x = v := by
  by_cases hb : pyStrip x = []
  · rw [lineKV_none_of_blank hb] at hx
    exact absurd hx (by simp)
  · by_cases hc : (pyStrip x).head? = some '#'
    · rw [lineKV_none_of_comment hb hc] at hx
      exact absurd hx (by simp)
    · by_cases ha : '=' ∈ pyStrip x
      · rw [lineKV_of_assign hb hc ha] at hx
        simp only [Option.some.injEq, Prod.mk.injEq] at hx
        exact ⟨hb, hc, ha, hx.1, hx.2⟩
      · rw [lineKV_none_of_skip hb hc ha] at hx
        exact absurd hx (by simp)

theorem parseList_ignored (igs : List Line) (h : ∀ g ∈ igs, IgnoredLine g) :
    ∀ st : List Line × Dict, parseList st igs = st := by
  induction igs with
  | nil => intro st; rfl
  | cons g igs ih =>
    intro st
    obtain ⟨h1, h2, h3⟩ := h g (List.mem_cons_self _ _)
    rw [show parseList st (g :: igs) = parseList (parseStep st g) igs from rfl,
      parseStep_skip st h1 h2 h3]
    exact ih (fun g hg => h g (List.mem_cons_of_mem _ hg)) st

theorem parseList_comments (cs : List Line) (h : ∀ c ∈ cs, CommentLine c) :
    ∀ st : List Line × Dict, parseList st cs = (st.1 ++ cs.map pyStrip, st.2) := by
  induction cs with
  | nil => intro st; simp [parseList]
  | cons c cs ih =>
    intro st
    obtain ⟨h1, h2⟩ := h c (List.mem_cons_self _ _)
    rw [show parseList st (c :: cs) = parseList (parseStep st c) cs from rfl,
      parseStep_comment st h1 h2, ih (fun c hc => h c (List.mem_cons_of_mem _ hc))]
    simp

theorem dlookup_parseList_no_assign (s : List Line) (k : Line)
    (hs : ∀ y ∈ s, ∀ kv : Line × Line, lineKV y = some kv → kv.1 ≠ k) :
    ∀ st : List Line × Dict, dlookup (parseList st s).2 k = dlookup st.2 k := by
  induction s with
  | nil => intro st; rfl
  | cons y s ih =>
    intro st
    rw [show parseList st (y :: s) = parseList (parseStep st y) s from rfl,
      ih (fun y hy => hs y (List.mem_cons_of_mem _ hy))]
    by_cases hb : pyStrip y = []
    · rw [parseStep_blank st hb]
    · by_cases hc : (pyStrip y).head? = some '#'
      · rw [parseStep_comment st hb hc]
      · by_cases ha : '=' ∈ pyStrip y
        · rw [parseStep_assign st hb hc ha]
          have hk := hs y (List.mem_cons_self _ _) (keyOf y, valOf y)
            (lineKV_of_assign hb hc ha)
          simp only at hk
          rw [show (([], dinsert st.2 (keyOf y) ⟨keyOf y, valOf y, st.1⟩) :
              List Line × Dict).2 = dinsert st.2 (keyOf y) ⟨keyOf y, valOf y, st.1⟩ from rfl,
            dlookup_dinsert, if_neg (fun hh => hk hh.symm)]
        · rw [parseStep_skip st hb hc ha]

theorem dlookup_parse_last_assign (p : List Line) (x : Line) (s : List Line) (k v : Line)
    (hx : lineKV x = some (k, v))
    (hs : ∀ y ∈ s, ∀ kv : Line × Line, lineKV y = some kv → kv.1 ≠ k) :
    dlookup (parseD (p ++ x :: s)) k =
      some ⟨k, v, (parseList ([], []) p).1⟩ := by
  obtain ⟨hb, hc, ha, hk, hv⟩ := lineKV_some_elim hx
  unfold parseD
  rw [parseList_append,
    show parseList (parseList ([], []) p) (x :: s) =
      parseList (parseStep (parseList ([], []) p) x) s from rfl,
    dlookup_parseList_no_assign s k hs,
    parseStep_assign _ hb hc ha]
  rw [show (([], dinsert (parseList ([], []) p).2 (keyOf x)
      ⟨keyOf x, valOf x, (parseList ([], []) p).1⟩) : List Line × Dict).2 =
      dinsert (parseList ([], []) p).2 (keyOf x)
        ⟨keyOf x, valOf x, (parseList ([], []) p).1⟩ from rfl,
    dlookup_dinsert, hk, hv, if_pos rfl]

/-! ### What the formatter's lines re-parse to -/

theorem lineKV_nil : lineKV [] = none :=
  lineKV_none_of_blank rfl

theorem lineKV_goodComment {c : Line} (hc : GoodCommentP c) : lineKV c = none := by
  obtain ⟨hcs, hch⟩ := hc
  have hne : pyStrip c ≠ [] := by
    rw [hcs]
    intro h
    rw [h] at hch
    exact absurd hch (by simp)
  exact lineKV_none_of_comment hne (by rw [hcs]; exact hch)

theorem lineKV_goodLine {k v : Line} (hk : GoodKeyP k) (hv : pyStrip v = v) :
    lineKV (k ++ '=' :: v) = some (k, v) := by
  obtain ⟨hks, hkeq, hkh⟩ := hk
  have hs := pyStrip_append_eq hks hv
  have hne : pyStrip (k ++ '=' :: v) ≠ [] := by
    rw [hs]
    cases k <;> simp
  have hhead : (pyStrip (k ++ '=' :: v)).head? ≠ some '#' := by
    rw [hs]
    cases k with
    | nil => simp
    | cons a t =>
      simpa using fun hh => hkh (by rw [List.head?_cons, hh])
  have hmem : '=' ∈ pyStrip (k ++ '=' :: v) := by
    rw [hs]
    exact List.mem_append.mpr (Or.inr (List.mem_cons_self _ _))
  rw [lineKV_of_assign hne hhead hmem, keyOf_wellFormed hks hv hkeq,
    valOf_wellFormed hks hv hkeq]

theorem filterMap_lineKV_formatLoop (es : List EnvEntry) (hes : ∀ e ∈ es, GoodEntryP e) :
    ∀ cp : Option Line,
      (formatLoop cp es).filterMap lineKV = es.map (fun e => (e.key, e.value)) := by
  induction es with
  | nil => intro cp; rfl
  | cons e es ih =>
    intro cp
    obtain ⟨hk, hv, hcs⟩ := hes e (List.mem_cons_self _ _)
    have h1 : ((match cp with
        | some p => if prefixOfKey e.key ≠ p then [([] : Line)] else []
        | none => ([] : List Line)) : List Line).filterMap lineKV = [] := by
      cases cp with
      | none => rfl
      | some p =>
        show List.filterMap lineKV (if prefixOfKey e.key ≠ p then [([] : Line)] else []) = []
        by_cases hp : prefixOfKey e.key ≠ p
        · rw [if_pos hp]
          simp [List.filterMap, lineKV_nil]
        · rw [if_neg hp]
          rfl
    have h2 : (if e.comments ≠ [] then e.comments else []).filterMap lineKV = [] := by
      by_cases hne : e.comments ≠ []
      · rw [if_pos hne, List.filterMap_eq_nil_iff]
        intro c hc
        exact lineKV_goodComment (hcs c hc)
      · rw [if_neg hne]
        rfl
    have h3 : ([e.key ++ '=' :: e.value] : List Line).filterMap lineKV
        = [(e.key, e.value)] := by
      simp [List.filterMap, lineKV_goodLine hk hv]
    simp only [formatLoop, List.filterMap_append, h1, h2, h3, List.nil_append,
      ih (fun e he => hes e (List.mem_cons_of_mem _ he)), List.map_cons]
    rfl

/-! ### `get_sorted_entries` -/

theorem sortKeys_perm (ks : List Line) : List.Perm (sortKeys ks) ks :=
  List.perm_insertionSort _ _

theorem sortKeys_sorted (ks : List Line) : List.Sorted (· ≤ ·) (sortKeys ks) :=
  List.sorted_insertionSort _ _

theorem mem_sortKeys {ks : List Line} {k : Line} : k ∈ sortKeys ks ↔ k ∈ ks :=
  (sortKeys_perm ks).mem_iff

theorem mem_getSortedEntries {d : Dict} {e : EnvEntry} (he : e ∈ getSortedEntries d) :
    ∃ k, dlookup d k = some e := by
  obtain ⟨k, _, hlk⟩ := List.mem_filterMap.mp he
  exact ⟨k, hlk⟩

theorem good_getSortedEntries {d : Dict} (hgood : ∀ p ∈ d, GoodEntryP p.2) :
    ∀ e ∈ getSortedEntries d, GoodEntryP e := by
  intro e he
  obtain ⟨k, hk⟩ := mem_getSortedEntries he
  exact hgood (k, e) (dlookup_mem hk)

theorem map_key_filterMap_dlookup (d : Dict) (hal : KeysAligned d) :
    ∀ ks : List Line, (∀ k ∈ ks, k ∈ keysOf d) →
      ((ks.filterMap (dlookup d)).map EnvEntry.key) = ks := by
  intro ks
  induction ks with
  | nil => intro _; rfl
  | cons k ks ih =>
    intro h
    obtain ⟨e, he⟩ := dlookup_isSome_of_mem (h k (List.mem_cons_self _ _))
    simp only [List.filterMap_cons, he, List.map_cons]
    rw [dlookup_key_eq hal he, ih (fun k hk => h k (List.mem_cons_of_mem _ hk))]

theorem map_key_getSortedEntries (d : Dict) (hal : KeysAligned d) :
    (getSortedEntries d).map EnvEntry.key = sortKeys (keysOf d) :=
  map_key_filterMap_dlookup d hal _ (fun _ hk => mem_sortKeys.mp hk)

theorem find?_kv_filterMap_dlookup (d : Dict) (hal : KeysAligned d) (k : Line) :
    ∀ ks : List Line, (∀ k' ∈ ks, k' ∈ keysOf d) →
      ((ks.filterMap (dlookup d)).map (fun e => (e.key, e.value))).find?
          (fun q => decide (q.1 = k)) =
        if k ∈ ks then (dlookup d k).map (fun e => (e.key, e.value)) else none := by
  intro ks
  induction ks with
  | nil => intro _; simp
  | cons k0 ks ih =>
    intro h
    obtain ⟨e0, he0⟩ := dlookup_isSome_of_mem (h k0 (List.mem_cons_self _ _))
    have hkey0 : e0.key = k0 := dlookup_key_eq hal he0
    simp only [List.filterMap_cons, he0, List.map_cons, List.find?_cons]
    by_cases hk : k0 = k
    · subst hk
      have hpred : decide (e0.key = k0) = true := by simp [hkey0]
      rw [hpred, if_pos (List.mem_cons_self _ _), he0]
      rfl
    · have hpred : decide (e0.key = k) = false := by simp [hkey0, hk]
      rw [hpred, ih (fun k' hk' => h k' (List.mem_cons_of_mem _ hk'))]
      by_cases hmem : k ∈ ks
      · rw [if_pos hmem, if_pos (List.mem_cons_of_mem _ hmem)]
      · rw [if_neg hmem, if_neg (by
          simp only [List.mem_cons, not_or]
          exact ⟨fun hh => hk hh.symm, hmem⟩)]

theorem find?_kv_getSortedEntries (d : Dict) (hal : KeysAligned d) (k : Line) :
    ((getSortedEntries d).map (fun e => (e.key, e.value))).find?
        (fun q => decide (q.1 = k)) =
      (dlookup d k).map (fun e => (e.key, e.value)) := by
  unfold getSortedEntries
  rw [find?_kv_filterMap_dlookup d hal k _ (fun _ hk => mem_sortKeys.mp hk)]
  by_cases hmem : k ∈ sortKeys (keysOf d)
  · rw [if_pos hmem]
  · rw [if_neg hmem, (dlookup_eq_none_iff d k).mpr (fun hh => hmem (mem_sortKeys.mpr hh))]
    rfl

theorem find?_reverse_of_nodup_keys {kvs : List (Line × Line)}
    (h : (kvs.map Prod.fst).Nodup) (k : Line) :
    kvs.reverse.find? (fun q => decide (q.1 = k)) =
      kvs.find? (fun q => decide (q.1 = k)) := by
  induction kvs with
  | nil => rfl
  | cons q0 kvs ih =>
    rw [List.reverse_cons, List.find?_append, List.find?_cons]
    have hnodup := List.nodup_cons.mp
      (show (q0.1 :: kvs.map Prod.fst).Nodup from by rw [← List.map_cons]; exact h)
    by_cases hq : q0.1 = k
    · have hnone : kvs.find? (fun q => decide (q.1 = k)) = none := by
        rw [List.find?_eq_none]
        intro x hx
        simp only [decide_eq_true_eq]
        intro hxk
        apply hnodup.1
        rw [hq, ← hxk]
        exact List.mem_map_of_mem Prod.fst hx
      have hnone' : kvs.reverse.find? (fun q => decide (q.1 = k)) = none := by
        rw [List.find?_eq_none]
        intro x hx
        exact (List.find?_eq_none.mp hnone) x (List.mem_reverse.mp hx)
      rw [hnone']
      simp [List.find?_cons, hq, hnone]
    · have hpred : decide (q0.1 = k) = false := by simp [hq]
      rw [ih hnodup.2]
      simp [List.find?_cons, hpred]

theorem nodup_keys_kv_getSortedEntries (d : Dict) (hal : KeysAligned d)
    (hnd : (keysOf d).Nodup) :
    (((getSortedEntries d).map (fun e => (e.key, e.value))).map Prod.fst).Nodup := by
  rw [List.map_map]
  have hcomp : (Prod.fst ∘ fun e : EnvEntry => (e.key, e.value)) = EnvEntry.key := rfl
  rw [hcomp, map_key_getSortedEntries d hal]
  exact ((sortKeys_perm (keysOf d)).nodup_iff).mpr hnd

theorem dlookup_reparse_formatLoop (d : Dict) (hal : KeysAligned d)
    (hnd : (keysOf d).Nodup) (hgood : ∀ p ∈ d, GoodEntryP p.2) (k : Line) :
    (dlookup (parseD (formatLoop none (getSortedEntries d))) k).map EnvEntry.value =
      (dlookup d k).map EnvEntry.value := by
  rw [dlookup_parseD_eq, filterMap_lineKV_formatLoop _ (good_getSortedEntries hgood) none,
    find?_reverse_of_nodup_keys (nodup_keys_kv_getSortedEntries d hal hnd) k,
    find?_kv_getSortedEntries d hal k]
  cases dlookup d k <;> rfl

/-! ### Newline-freedom of everything the parser stores -/

theorem parseStep_noNL {st : List Line × Dict} {raw : Line} (hraw : NoNL raw)
    (h1 : ∀ c ∈ st.1, NoNL c) (h2 : ∀ p ∈ st.2, NoNLEntry p.2) :
    (∀ c ∈ (parseStep st raw).1, NoNL c) ∧ (∀ p ∈ (parseStep st raw).2, NoNLEntry p.2) := by
  by_cases hb : pyStrip raw = []
  · rw [parseStep_blank st hb]
    exact ⟨by simp, h2⟩
  · by_cases hc : (pyStrip raw).head? = some '#'
    · rw [parseStep_comment st hb hc]
      refine ⟨?_, h2⟩
      intro c hcm
      rcases List.mem_append.mp hcm with h | h
      · exact h1 c h
      · rw [List.mem_singleton] at h
        subst h
        exact fun hmem => hraw (mem_of_mem_pyStrip hmem)
    · by_cases ha : '=' ∈ pyStrip raw
      · rw [parseStep_assign st hb hc ha]
        refine ⟨by simp, ?_⟩
        intro p hp
        rcases mem_dinsert hp with h | h
        · subst h
          exact ⟨fun hm => hraw (mem_of_mem_keyOf hm),
            fun hm => hraw (mem_of_mem_valOf hm), h1⟩
        · exact h2 p h
      · rw [parseStep_skip st hb hc ha]
        exact ⟨h1, h2⟩

theorem parseList_noNL (L : List Line) (hL : ∀ l ∈ L, NoNL l) :
    ∀ st : List Line × Dict, (∀ c ∈ st.1, NoNL c) → (∀ p ∈ st.2, NoNLEntry p.2) →
      (∀ c ∈ (parseList st L).1, NoNL c) ∧ (∀ p ∈ (parseList st L).2, NoNLEntry p.2) := by
  induction L with
  | nil => intro st h1 h2; exact ⟨h1, h2⟩
  | cons l L ih =>
    intro st h1 h2
    obtain ⟨g1, g2⟩ := parseStep_noNL (hL l (List.mem_cons_self _ _)) h1 h2
    exact ih (fun l hl => hL l (List.mem_cons_of_mem _ hl)) (parseStep st l) g1 g2

theorem parseD_noNL {lines : List Line} (hL : ∀ l ∈ lines, NoNL l) :
    ∀ p ∈ parseD lines, NoNLEntry p.2 :=
  (parseList_noNL lines hL ([], []) (by simp) (by intro q hq; simp at hq)).2

theorem formatLoop_cons (cp : Option Line) (e : EnvEntry) (es : List EnvEntry) :
    formatLoop cp (e :: es) =
      ((match cp with
        | some p => if prefixOfKey e.key ≠ p then [([] : Line)] else []
        | none => []) ++
       (if e.comments ≠ [] then e.comments else []) ++
       [e.key ++ '=' :: e.value]) ++ formatLoop (some (prefixOfKey e.key)) es := rfl

theorem noNL_formatLoop {es : List EnvEntry} (hes : ∀ e ∈ es, NoNLEntry e) :
    ∀ cp : Option Line, ∀ l ∈ formatLoop cp es, NoNL l := by
  induction es with
  | nil => intro cp l hl; simp [formatLoop] at hl
  | cons e es ih =>
    intro cp l hl
    obtain ⟨hk, hv, hcs⟩ := hes e (List.mem_cons_self _ _)
    rw [formatLoop_cons] at hl
    rcases List.mem_append.mp hl with hl1 | hrest
    · rcases List.mem_append.mp hl1 with hl2 | hline
      · rcases List.mem_append.mp hl2 with hblank | hcomm
        · have hnil : l = [] := by
            cases cp with
            | none => exact absurd hblank (by simp)
            | some p =>
              revert hblank
              show l ∈ (if prefixOfKey e.key ≠ p then [([] : Line)] else []) → l = []
              by_cases hp : prefixOfKey e.key ≠ p
              · rw [if_pos hp]
                intro hm
                exact List.mem_singleton.mp hm
              · rw [if_neg hp]
                intro hm
                exact absurd hm (by simp)
          rw [hnil]
          intro hm
          exact absurd hm (by simp)
        · by_cases hcne : e.comments ≠ []
          · rw [if_pos hcne] at hcomm
            exact hcs l hcomm
          · rw [if_neg hcne] at hcomm
            exact absurd hcomm (by simp)
      · rw [List.mem_singleton] at hline
        subst hline
        intro hmem
        rcases List.mem_append.mp hmem with hmk | hmv
        · exact hk hmk
        · rcases List.mem_cons.mp hmv with heq | hmv2
          · exact absurd heq (by decide)
          · exact hv hmv2
    · exact ih (fun e he => hes e (List.mem_cons_of_mem _ he)) _ l hrest

/-! ### Splitting the joined output back into lines -/

theorem splitNL_no_newline {a : Line} (h : NoNL a) : splitNL a = [a] := by
  induction a with
  | nil => rfl
  | cons c t ih =>
    have hc : ¬ c = '\n' := fun hh => h (hh ▸ List.mem_cons_self _ _)
    have ht : NoNL t := fun hm => h (List.mem_cons_of_mem _ hm)
    simp [splitNL, hc, ih ht]

theorem splitNL_append_cons {a : Line} (h : NoNL a) (r : Line) :
    splitNL (a ++ '\n' :: r) = a :: splitNL r := by
  induction a with
  | nil => simp [splitNL]
  | cons c t ih =>
    have hc : ¬ c = '\n' := fun hh => h (hh ▸ List.mem_cons_self _ _)
    have ht : NoNL t := fun hm => h (List.mem_cons_of_mem _ hm)
    simp [splitNL, hc, ih ht]

theorem splitNL_joinNL {ls : List Line} (h : ∀ l ∈ ls, NoNL l) (hne : ls ≠ []) :
    splitNL (joinNL ls) = ls := by
  induction ls with
  | nil => exact absurd rfl hne
  | cons a ls ih =>
    cases ls with
    | nil => exact splitNL_no_newline (h a (List.mem_cons_self _ _))
    | cons b ls2 =>
      rw [show joinNL (a :: b :: ls2) = a ++ '\n' :: joinNL (b :: ls2) from rfl,
        splitNL_append_cons (h a (List.mem_cons_self _ _)),
        ih (fun l hl => h l (List.mem_cons_of_mem _ hl)) (by simp)]

theorem joinNL_ne_nil {ls : List Line} {x : Line} (hx : x ∈ ls) (hxne : x ≠ []) :
    joinNL ls ≠ [] := by
  induction ls with
  | nil => simp at hx
  | cons a ls ih =>
    cases ls with
    | nil =>
      rw [List.mem_singleton] at hx
      subst hx
      simpa [joinNL] using hxne
    | cons b ls2 =>
      rw [show joinNL (a :: b :: ls2) = a ++ '\n' :: joinNL (b :: ls2) from rfl]
      simp

theorem linesOf_joinNL {ls : List Line} (h : ∀ l ∈ ls, NoNL l) (hne : ls ≠ [])
    (hjoin : joinNL ls ≠ []) : linesOf (joinNL ls) = ls := by
  unfold linesOf
  rw [if_neg hjoin]
  exact splitNL_joinNL h hne

theorem kvline_mem_formatLoop (e : EnvEntry) (es : List EnvEntry) (cp : Option Line) :
    (e.key ++ '=' :: e.value) ∈ formatLoop cp (e :: es) := by
  simp [formatLoop]

/-- **C1.**  For every input file (a list of newline-free lines — every file
read line-by-line yields such lines) the parse of the Formatter's output has
exactly the same key-to-value mapping as the parse of the original file: for
every key, looking up its value in both parses gives the same result.
Comments and the inserted blank group-separator lines may differ; the
key-to-value pairs do not. -/
theorem c1_format_roundtrip (lines : List Line) (hnl : ∀ l ∈ lines, NoNL l) (k : Line) :
    (dlookup (parseD (linesOf (format (parseD lines)))) k).map EnvEntry.value =
      (dlookup (parseD lines) k).map EnvEntry.value := by
  have hal : KeysAligned (parseD lines) := parseD_aligned lines
  have hnd := parseD_nodup lines
  have hgood : ∀ p ∈ parseD lines, GoodEntryP p.2 := fun p hp => parseD_good hp
  have hnoNL : ∀ p ∈ parseD lines, NoNLEntry p.2 := parseD_noNL hnl
  have hlinesNoNL : ∀ l ∈ formatLoop none (getSortedEntries (parseD lines)), NoNL l :=
    noNL_formatLoop (fun e he => by
      obtain ⟨k', hk'⟩ := mem_getSortedEntries he
      exact hnoNL (k', e) (dlookup_mem hk')) none
  by_cases hni : getSortedEntries (parseD lines) = []
  · have hkeys : keysOf (parseD lines) = [] := by
      by_contra hkne
      cases hk0 : keysOf (parseD lines) with
      | nil => exact hkne hk0
      | cons k0 rest =>
        have hk0mem : k0 ∈ keysOf (parseD lines) := by
          rw [hk0]
          exact List.mem_cons_self _ _
        obtain ⟨e0, he0⟩ := dlookup_isSome_of_mem hk0mem
        have hmem : e0 ∈ getSortedEntries (parseD lines) :=
          List.mem_filterMap.mpr ⟨k0, mem_sortKeys.mpr hk0mem, he0⟩
        rw [hni] at hmem
        exact absurd hmem (by simp)
    have hdnil : parseD lines = [] := by
      cases hd : parseD lines with
      | nil => rfl
      | cons p d' =>
        rw [hd, keysOf_cons] at hkeys
        exact absurd hkeys (by simp)
    rw [hdnil]
    rfl
  · cases heq : getSortedEntries (parseD lines) with
    | nil => exact absurd heq hni
    | cons e es' =>
      have hkv : (e.key ++ '=' :: e.value) ∈
          formatLoop none (getSortedEntries (parseD lines)) := by
        rw [heq]
        exact kvline_mem_formatLoop e es' none
      have hne : formatLoop none (getSortedEntries (parseD lines)) ≠ [] := by
        intro hh
        rw [hh] at hkv
        exact absurd hkv (by simp)
      have hjoin := joinNL_ne_nil hkv (by simp)
      have hlin : linesOf (format (parseD lines)) =
          formatLoop none (getSortedEntries (parseD lines)) := by
        rw [show format (parseD lines) =
          joinNL (formatLoop none (getSortedEntries (parseD lines))) from rfl]
        exact linesOf_joinNL hlinesNoNL hne hjoin
      rw [hlin]
      exact dlookup_reparse_formatLoop (parseD lines) hal hnd hgood k

/-- Witness for C1 at a concrete file. -/
theorem c1_format_roundtrip_witness :
    (dlookup (parseD (linesOf (format (parseD
        ["# host".toList, "DB_HOST = local ".toList, "APP=x=y".toList,
         "DB_PORT=5432".toList])))) "DB_HOST".toList).map EnvEntry.value =
      (dlookup (parseD
        ["# host".toList, "DB_HOST = local ".toList, "APP=x=y".toList,
         "DB_PORT=5432".toList]) "DB_HOST".toList).map EnvEntry.value :=
  c1_format_roundtrip _ (by decide) _

/-- **C4.**  For every line that is non-empty after trimming, does not start
with `#` and contains at least one `=`, the parser stores the entry obtained
by splitting at the FIRST `=` only — key = trimmed text before it, value =
trimmed text after it (later `=` characters stay in the value) — together
with a snapshot of the pending-comments buffer, and clears the buffer.  The
second conjunct states the first-`=`-split explicitly: for any decomposition
of the stripped line as `a ++ '=' :: b` with `'=' ∉ a`, the stored key is
`pyStrip a` and the stored value is `pyStrip b`. -/
theorem c4_first_eq_split (raw : Line) (st : List Line × Dict)
    (h1 : pyStrip raw ≠ []) (h2 : (pyStrip raw).head? ≠ some '#')
    (h3 : '=' ∈ pyStrip raw) :
    parseStep st raw = ([], dinsert st.2 (keyOf raw) ⟨keyOf raw, valOf raw, st.1⟩) ∧
    ∀ a b : Line, pyStrip raw = a ++ '=' :: b → '=' ∉ a →
      keyOf raw = pyStrip a ∧ valOf raw = pyStrip b := by
  refine ⟨parseStep_assign st h1 h2 h3, ?_⟩
  intro a b hsplit ha
  constructor
  · unfold keyOf
    rw [hsplit, takeWhile_append_eqSign ha]
  · unfold valOf
    rw [hsplit, dropWhile_append_eqSign ha]
    simp

/-- Witness for C4 at the line `" K = a=b "` with one pending comment. -/
theorem c4_first_eq_split_witness :
    (parseStep (["# c".toList], ([] : Dict)) " K = a=b ".toList =
      ([], dinsert ([] : Dict) (keyOf " K = a=b ".toList)
        ⟨keyOf " K = a=b ".toList, valOf " K = a=b ".toList, ["# c".toList]⟩)) ∧
    (keyOf " K = a=b ".toList = pyStrip "K ".toList ∧
     valOf " K = a=b ".toList = pyStrip " a=b".toList) :=
  ⟨(c4_first_eq_split " K = a=b ".toList (["# c".toList], ([] : Dict))
      (by decide) (by decide) (by decide)).1,
   (c4_first_eq_split " K = a=b ".toList (["# c".toList], ([] : Dict))
      (by decide) (by decide) (by decide)).2 "K ".toList " a=b".toList
      (by decide) (by decide)⟩

/-- **C5.**  When the same key `k` is assigned on two lines `y` (value `v1`)
and `x` (value `v2`), and `x` is the last assignment to `k`, the parsed
result holds exactly the last occurrence's value `v2` with the
pending-comments buffer as of just before `x` — the earlier value `v1` and
its comments are discarded (the conclusion does not depend on `v1`). -/
theorem c5_last_duplicate_wins (p1 : List Line) (y : Line) (p2 : List Line) (x : Line)
    (s : List Line) (k v1 v2 : Line)
    (hy : lineKV y = some (k, v1)) (hx : lineKV x = some (k, v2))
    (hs : ∀ z ∈ s, ∀ kv : Line × Line, lineKV z = some kv → kv.1 ≠ k) :
    dlookup (parseD (p1 ++ y :: p2 ++ x :: s)) k =
      some ⟨k, v2, (parseList ([], []) (p1 ++ y :: p2)).1⟩ :=
  dlookup_parse_last_assign (p1 ++ y :: p2) x s k v2 hx hs

/-- Witness for C5: `A=1` then `# two` then `A=2` keeps value `2` and the
comment block of the second occurrence only. -/
theorem c5_last_duplicate_wins_witness :
    dlookup (parseD (["# one".toList] ++ "A=1".toList ::
        ["# two".toList] ++ "A=2".toList :: ([] : List Line))) "A".toList =
      some ⟨"A".toList, "2".toList,
        (parseList ([], []) (["# one".toList] ++ "A=1".toList ::
          ["# two".toList])).1⟩ :=
  c5_last_duplicate_wins ["# one".toList] "A=1".toList ["# two".toList]
    "A=2".toList [] "A".toList "1".toList "2".toList
    (by decide) (by decide) (by intro z hz; simp at hz)

/-- **C6.**  A comment block immediately followed by a blank line before the
next assignment line is discarded: the blank line clears the
pending-comments buffer, so the next entry is stored with no comments. -/
theorem c6_blank_discards_comments (p : List Line) (cs : List Line) (b : Line) (x : Line)
    (s : List Line) (k v : Line)
    (hcs : ∀ c ∈ cs, CommentLine c) (hb : BlankLine b) (hx : lineKV x = some (k, v))
    (hs : ∀ z ∈ s, ∀ kv : Line × Line, lineKV z = some kv → kv.1 ≠ k) :
    dlookup (parseD (p ++ cs ++ b :: x :: s)) k = some ⟨k, v, []⟩ := by
  have hbuf : (parseList ([], []) ((p ++ cs) ++ [b])).1 = [] := by
    rw [parseList_append,
      show parseList (parseList ([], []) (p ++ cs)) [b] =
        parseStep (parseList ([], []) (p ++ cs)) b from rfl,
      parseStep_blank _ hb]
  have hr : p ++ cs ++ b :: x :: s = ((p ++ cs) ++ [b]) ++ x :: s := by simp
  rw [hr, dlookup_parse_last_assign _ x s k v hx hs, hbuf]

/-- Witness for C6: a comment, a blank line, then `K=1` gives `K` no
comments. -/
theorem c6_blank_discards_comments_witness :
    dlookup (parseD (([] : List Line) ++ ["# gone".toList] ++
        "".toList :: "K=1".toList :: ([] : List Line))) "K".toList =
      some ⟨"K".toList, "1".toList, []⟩ :=
  c6_blank_discards_comments [] ["# gone".toList] "".toList "K=1".toList []
    "K".toList "1".toList (by decide) (by decide) (by decide)
    (by intro z hz; simp at hz)

/-- **C10.**  A non-blank line that is not a comment and contains no `=` is
skipped leaving the whole state (including the pending-comments buffer)
untouched; consequently (second conjunct) a comment block separated from the
next assignment line only by such ignored lines is still attached to that
entry. -/
theorem c10_ignored_line_keeps_buffer (l : Line) (st : List Line × Dict)
    (h1 : pyStrip l ≠ []) (h2 : (pyStrip l).head? ≠ some '#') (h3 : '=' ∉ pyStrip l) :
    parseStep st l = st ∧
    ∀ (p : List Line) (b : Line) (cs igs : List Line) (x : Line) (s : List Line)
      (k v : Line), BlankLine b → (∀ c ∈ cs, CommentLine c) →
      (∀ g ∈ igs, IgnoredLine g) → lineKV x = some (k, v) →
      (∀ z ∈ s, ∀ kv : Line × Line, lineKV z = some kv → kv.1 ≠ k) →
      dlookup (parseD (p ++ b :: (cs ++ igs ++ x :: s))) k =
        some ⟨k, v, cs.map pyStrip⟩ := by
  refine ⟨parseStep_skip st h1 h2 h3, ?_⟩
  intro p b cs igs x s k v hb hcs higs hx hs
  have hbuf : (parseList ([], []) (((p ++ [b]) ++ cs) ++ igs)).1 = cs.map pyStrip := by
    rw [parseList_append, parseList_ignored igs higs, parseList_append,
      parseList_comments cs hcs, parseList_append,
      show parseList (parseList ([], []) p) [b] = parseStep (parseList ([], []) p) b
        from rfl,
      parseStep_blank _ hb]
    simp
  have hr : p ++ b :: (cs ++ igs ++ x :: s) = (((p ++ [b]) ++ cs) ++ igs) ++ x :: s := by
    simp
  rw [hr, dlookup_parse_last_assign _ x s k v hx hs, hbuf]

/-- Witness for C10: a comment block, an ignored `junk` line, then `K=1`
keeps the comment attached. -/
theorem c10_ignored_line_keeps_buffer_witness :
    (parseStep (["# c".toList], ([] : Dict)) "junk".toList = (["# c".toList], [])) ∧
    dlookup (parseD (([] : List Line) ++ "".toList ::
        (["# kept".toList] ++ ["junk".toList] ++ "K=1".toList :: ([] : List Line))))
        "K".toList =
      some ⟨"K".toList, "1".toList, (["# kept".toList] : List Line).map pyStrip⟩ :=
  ⟨(c10_ignored_line_keeps_buffer "junk".toList (["# c".toList], ([] : Dict))
      (by decide) (by decide) (by decide)).1,
   (c10_ignored_line_keeps_buffer "junk".toList (["# c".toList], ([] : Dict))
      (by decide) (by decide) (by decide)).2 [] "".toList ["# kept".toList]
      ["junk".toList] "K=1".toList [] "K".toList "1".toList (by decide) (by decide)
      (by decide) (by decide) (by intro z hz; simp at hz)⟩

/-- **C9.**  Comparing any parsed mapping against itself yields empty
`onlyInA`, empty `onlyInB` and an empty `differing` mapping. -/
theorem c9_compare_self (d : Dict) : compare d d = ([], [], []) := by
  unfold compare
  have h1 : (keysOf d).filter (fun k => decide (¬ k ∈ keysOf d)) = [] := by
    apply List.filter_eq_nil_iff.mpr
    intro a ha
    simp [ha]
  have h3 : ((sortKeys ((keysOf d).filter (fun k => decide (k ∈ keysOf d)))).filterMap
      (fun k => match dlookup d k, dlookup d k with
        | some e1, some e2 =>
          if e1.value ≠ e2.value then some (k, e1.value, e2.value) else none
        | _, _ => none)) = [] := by
    apply List.filterMap_eq_nil_iff.mpr
    intro k _
    cases hdk : dlookup d k with
    | none => simp
    | some e => simp
  simp only [h1, h3, show sortKeys [] = [] from rfl]

/-- **C7 counterexample**: parsing the single line `=x` stores the empty
string as a key, so not every stored key is non-empty. -/
theorem c7_counterexample : ([] : Line) ∈ keysOf (parseD [['=', 'x']]) := by
  decide

/-- **C7 amended.**  Every key stored in the parsed mapping is already
stripped (no leading or trailing whitespace), contains no `=`, and does not
start with `#`; it may however be the empty string (when only whitespace
precedes the line's first `=`). -/
theorem c7_amended_keys_shape (lines : List Line) (k : Line)
    (hk : k ∈ keysOf (parseD lines)) :
    pyStrip k = k ∧ '=' ∉ k ∧ k.head? ≠ some '#' := by
  obtain ⟨e, he⟩ := dlookup_isSome_of_mem hk
  have hg := parseD_good (dlookup_mem he)
  have hkey := dlookup_key_eq (parseD_aligned lines) he
  have hgk := hg.1
  rw [hkey] at hgk
  exact hgk

/-- Witness for the amended C7. -/
theorem c7_amended_keys_shape_witness :
    pyStrip "A".toList = "A".toList ∧ '=' ∉ "A".toList ∧
      ("A".toList).head? ≠ some '#' :=
  c7_amended_keys_shape ["A=1".toList] "A".toList (by decide)

/-! ### The formatter walk matches the spec's description -/

theorem prefixOfKey_eq_spec (k : Line) : prefixOfKey k = specPrefixOfKey k := by
  unfold prefixOfKey specPrefixOfKey
  by_cases h : '_' ∈ k
  · rw [if_pos h]
  · rw [if_neg h]
    symm
    apply List.takeWhile_eq_self_iff.mpr
    intro a ha
    simp only [bne_iff_ne, ne_eq]
    rintro rfl
    exact h ha

theorem specFormatWalk_cons (cp : Option Line) (e : EnvEntry) (es : List EnvEntry) :
    specFormatWalk cp (e :: es) =
      (match cp with
       | some p => if specPrefixOfKey e.key ≠ p then [([] : Line)] else []
       | none => []) ++
      e.comments ++ (e.key ++ '=' :: e.value) ::
        specFormatWalk (some (specPrefixOfKey e.key)) es := rfl

theorem formatLoop_eq_specWalk (es : List EnvEntry) :
    ∀ cp : Option Line, formatLoop cp es = specFormatWalk cp es := by
  induction es with
  | nil => intro cp; rfl
  | cons e es ih =>
    intro cp
    rw [formatLoop_cons, specFormatWalk_cons, ih, prefixOfKey_eq_spec]
    by_cases hc : e.comments ≠ []
    · rw [if_pos hc]
      simp [List.append_assoc]
    · rw [if_neg hc, not_not.mp hc]
      simp [List.append_assoc]

theorem filterMap_dlookup_keys : ∀ d : Dict, (keysOf d).Nodup →
    (keysOf d).filterMap (dlookup d) = d.map Prod.snd := by
  intro d
  induction d with
  | nil => intro _; rfl
  | cons p d ih =>
    intro hnd
    obtain ⟨k0, e0⟩ := p
    rw [keysOf_cons] at hnd
    have hnd' := List.nodup_cons.mp hnd
    have hfst : dlookup ((k0, e0) :: d) k0 = some e0 := by rw [dlookup_cons, if_pos rfl]
    simp only [keysOf_cons, List.filterMap_cons, hfst]
    have hcong : (keysOf d).filterMap (dlookup ((k0, e0) :: d)) =
        (keysOf d).filterMap (dlookup d) := by
      apply List.filterMap_congr
      intro k hk
      rw [dlookup_cons, if_neg]
      intro hh
      apply hnd'.1
      show k0 ∈ keysOf d
      rw [hh]
      exact hk
    rw [hcong, ih hnd'.2, List.map_cons]

/-- **C3.**  On every parsed file the formatter (i) produces exactly the
lines described by the spec's walk — entries in order, each preceded by one
blank line when its prefix (text before the first underscore, or the whole
key) differs from the previous emitted entry's prefix and a previous entry
exists, the entry's stored comment lines verbatim, then the `key=value`
line — joined by single newlines with no trailing newline; (ii) emits the
entries sorted lexicographically ascending by key; (iii) emits exactly the
parsed entries (a permutation of the mapping's entries); and (iv) computes
the prefix exactly as the spec words it. -/
theorem c3_format_emission (lines : List Line) :
    format (parseD lines) =
      joinNL (specFormatLines (getSortedEntries (parseD lines))) ∧
    List.Sorted (· ≤ ·) ((getSortedEntries (parseD lines)).map EnvEntry.key) ∧
    List.Perm (getSortedEntries (parseD lines)) ((parseD lines).map Prod.snd) ∧
    ∀ k : Line, prefixOfKey k = specPrefixOfKey k := by
  refine ⟨?_, ?_, ?_, prefixOfKey_eq_spec⟩
  · show joinNL (formatLoop none (getSortedEntries (parseD lines))) = _
    rw [formatLoop_eq_specWalk]
    rfl
  · rw [map_key_getSortedEntries _ (parseD_aligned lines)]
    exact sortKeys_sorted _
  · have h2 := (sortKeys_perm (keysOf (parseD lines))).filterMap (dlookup (parseD lines))
    have h3 : (keysOf (parseD lines)).filterMap (dlookup (parseD lines)) =
        (parseD lines).map Prod.snd :=
      filterMap_dlookup_keys _ (parseD_nodup lines)
    rw [show getSortedEntries (parseD lines) =
      (sortKeys (keysOf (parseD lines))).filterMap (dlookup (parseD lines)) from rfl, ← h3]
    exact h2

/-! ### The comparator -/

theorem map_fst_filterMap_keyed {β : Type} (f : Line → Option (Line × β))
    (hf : ∀ k q, f k = some q → q.1 = k) :
    ∀ ks : List Line, List.Sublist ((ks.filterMap f).map Prod.fst) ks := by
  intro ks
  induction ks with
  | nil => simp
  | cons k0 ks ih =>
    rw [List.filterMap_cons]
    cases hf0 : f k0 with
    | none => exact ih.cons k0
    | some q =>
      rw [List.map_cons, hf k0 q hf0]
      exact ih.cons₂ k0

/-- **C2.**  For every pair of parsed files: `onlyInA` is sorted ascending
and holds exactly the keys of A absent from B; `onlyInB` symmetrically; the
`differing` component is reported in ascending key order and holds exactly
the triples `(k, valueInA, valueInB)` for keys stored in both whose values
differ by exact string comparison — keys with equal values appear nowhere in
it. -/
theorem c2_compare_spec (lines1 lines2 : List Line) :
    (List.Sorted (· ≤ ·) (compare (parseD lines1) (parseD lines2)).1 ∧
      ∀ k : Line, k ∈ (compare (parseD lines1) (parseD lines2)).1 ↔
        (k ∈ keysOf (parseD lines1) ∧ k ∉ keysOf (parseD lines2))) ∧
    (List.Sorted (· ≤ ·) (compare (parseD lines1) (parseD lines2)).2.1 ∧
      ∀ k : Line, k ∈ (compare (parseD lines1) (parseD lines2)).2.1 ↔
        (k ∈ keysOf (parseD lines2) ∧ k ∉ keysOf (parseD lines1))) ∧
    (List.Sorted (· ≤ ·) ((compare (parseD lines1) (parseD lines2)).2.2.map Prod.fst) ∧
      ∀ k va vb : Line,
        (k, va, vb) ∈ (compare (parseD lines1) (parseD lines2)).2.2 ↔
          ((dlookup (parseD lines1) k).map EnvEntry.value = some va ∧
           (dlookup (parseD lines2) k).map EnvEntry.value = some vb ∧ va ≠ vb)) := by
  have hu1 : (compare (parseD lines1) (parseD lines2)).1 =
      sortKeys ((keysOf (parseD lines1)).filter
        (fun k => decide (¬ k ∈ keysOf (parseD lines2)))) := rfl
  have hu2 : (compare (parseD lines1) (parseD lines2)).2.1 =
      sortKeys ((keysOf (parseD lines2)).filter
        (fun k => decide (¬ k ∈ keysOf (parseD lines1)))) := rfl
  have hdf : (compare (parseD lines1) (parseD lines2)).2.2 =
      (sortKeys ((keysOf (parseD lines1)).filter
        (fun k => decide (k ∈ keysOf (parseD lines2))))).filterMap
        (fun k => match dlookup (parseD lines1) k, dlookup (parseD lines2) k with
          | some e1, some e2 =>
            if e1.value ≠ e2.value then some (k, e1.value, e2.value) else none
          | _, _ => none) := rfl
  refine ⟨⟨?_, ?_⟩, ⟨?_, ?_⟩, ⟨?_, ?_⟩⟩
  · rw [hu1]
    exact sortKeys_sorted _
  · intro k
    rw [hu1, mem_sortKeys, List.mem_filter]
    simp
  · rw [hu2]
    exact sortKeys_sorted _
  · intro k
    rw [hu2, mem_sortKeys, List.mem_filter]
    simp
  · rw [hdf]
    refine List.Pairwise.sublist (map_fst_filterMap_keyed _ ?_ _) (sortKeys_sorted _)
    intro k q hq
    cases h1 : dlookup (parseD lines1) k with
    | none => rw [h1] at hq; exact absurd hq (by simp)
    | some e1 =>
      cases h2 : dlookup (parseD lines2) k with
      | none => rw [h1, h2] at hq; exact absurd hq (by simp)
      | some e2 =>
        rw [h1, h2] at hq
        have hq2 : (if e1.value ≠ e2.value then some (k, e1.value, e2.value)
            else none) = some q := hq
        by_cases hv : e1.value ≠ e2.value
        · rw [if_pos hv] at hq2
          simp only [Option.some.injEq] at hq2
          rw [← hq2]
        · rw [if_neg hv] at hq2
          exact absurd hq2 (by simp)
  · intro k va vb
    rw [hdf, List.mem_filterMap]
    constructor
    · rintro ⟨k', hk', hfk'⟩
      cases h1 : dlookup (parseD lines1) k' with
      | none => rw [h1] at hfk'; exact absurd hfk' (by simp)
      | some e1 =>
        cases h2 : dlookup (parseD lines2) k' with
        | none => rw [h1, h2] at hfk'; exact absurd hfk' (by simp)
        | some e2 =>
          rw [h1, h2] at hfk'
          have hfk2 : (if e1.value ≠ e2.value then some (k', e1.value, e2.value)
              else none) = some (k, va, vb) := hfk'
          by_cases hv : e1.value ≠ e2.value
          · rw [if_pos hv] at hfk2
            simp only [Option.some.injEq, Prod.mk.injEq] at hfk2
            obtain ⟨hkk, hva, hvb⟩ := hfk2
            subst hkk
            rw [h1, h2]
            exact ⟨by rw [← hva]; rfl, by rw [← hvb]; rfl,
              by rw [← hva, ← hvb]; exact hv⟩
          · rw [if_neg hv] at hfk2
            exact absurd hfk2 (by simp)
    · rintro ⟨hva, hvb, hne⟩
      obtain ⟨e1, h1, hval1⟩ := Option.map_eq_some'.mp hva
      obtain ⟨e2, h2, hval2⟩ := Option.map_eq_some'.mp hvb
      refine ⟨k, ?_, ?_⟩
      · rw [mem_sortKeys, List.mem_filter]
        refine ⟨mem_keysOf_of_dlookup h1, by simp [mem_keysOf_of_dlookup h2]⟩
      · rw [h1, h2]
        show (if e1.value ≠ e2.value then some (k, e1.value, e2.value)
            else none) = some (k, va, vb)
        rw [if_pos (by rw [hval1, hval2]; exact hne), hval1, hval2]

/-! ### The driver's missing-file behaviour -/

theorem runMain_compare (fs : FS) (f1 f2 : Line) :
    runMain fs (Mode.compareFiles f1 f2) =
      if fs.pathExists f1 = false ∨ fs.pathExists f2 = false then
        ⟨1, [], printLn msgCompareMissing⟩
      else
        ⟨0, compareOutput f1 f2
          (compare (parseD (fs.fileContent f1)) (parseD (fs.fileContent f2))), []⟩ := rfl

theorem runMain_format (fs : FS) (f : Line) :
    runMain fs (Mode.formatFile f) =
      if fs.pathExists f = false then
        ⟨1, [], printLn (msgFormatMissing f)⟩
      else
        ⟨0, printLn (format (parseD (fs.fileContent f))), []⟩ := rfl

theorem isPrefixOf_append_self (l rest : Line) : l.isPrefixOf (l ++ rest) = true := by
  induction l with
  | nil => simp [List.isPrefixOf]
  | cons a t ih => simp [List.isPrefixOf, ih]

theorem containsSub_self_append (pat post : Line) :
    containsSub pat (pat ++ post) = true := by
  cases pat with
  | nil =>
    cases post with
    | nil => rfl
    | cons c t => simp [containsSub, List.isPrefixOf]
  | cons a t =>
    show containsSub (a :: t) (a :: (t ++ post)) = true
    rw [show containsSub (a :: t) (a :: (t ++ post)) =
      ((a :: t).isPrefixOf (a :: (t ++ post)) || containsSub (a :: t) (t ++ post))
      from rfl]
    have h := isPrefixOf_append_self (a :: t) post
    rw [List.cons_append] at h
    simp [h]

theorem containsSub_middle (pre pat post : Line) :
    containsSub pat (pre ++ (pat ++ post)) = true := by
  induction pre with
  | nil => exact containsSub_self_append pat post
  | cons c cs ih =>
    show containsSub pat (c :: (cs ++ (pat ++ post))) = true
    rw [show containsSub pat (c :: (cs ++ (pat ++ post))) =
      (pat.isPrefixOf (c :: (cs ++ (pat ++ post))) ||
        containsSub pat (cs ++ (pat ++ post))) from rfl]
    simp [ih]

/-- **C8 counterexample.**  In compare mode with a nonexistent first path the
process does exit with status 1, but the error message is the fixed text
`Error: One or both files do not exist`, which does not mention (contain)
the missing path — refuting the claim as stated. -/
theorem c8_counterexample :
    (runMain ⟨fun _ => false, fun _ => []⟩
        (Mode.compareFiles "missing.env".toList "other.env".toList)).exitCode = 1 ∧
    containsSub "missing.env".toList
      (runMain ⟨fun _ => false, fun _ => []⟩
        (Mode.compareFiles "missing.env".toList "other.env".toList)).stderrStream
      = false := by
  decide

/-- **C8 amended.**  When a named input path does not exist the process
exits with status 1 and prints an error message to standard error before any
parsing is attempted (the outcome is independent of all file contents).  In
format mode the message names the missing file; in compare mode it is the
fixed text `Error: One or both files do not exist`, which does not name it. -/
theorem c8_amended_missing_file (fs : FS) (f1 f2 f : Line)
    (h1 : fs.pathExists f1 = false ∨ fs.pathExists f2 = false)
    (hf : fs.pathExists f = false) :
    ((runMain fs (Mode.compareFiles f1 f2)).exitCode = 1 ∧
     (runMain fs (Mode.compareFiles f1 f2)).stderrStream = printLn msgCompareMissing ∧
     (∀ c c' : Line → List Line,
        runMain ⟨fs.pathExists, c⟩ (Mode.compareFiles f1 f2) =
          runMain ⟨fs.pathExists, c'⟩ (Mode.compareFiles f1 f2))) ∧
    ((runMain fs (Mode.formatFile f)).exitCode = 1 ∧
     (runMain fs (Mode.formatFile f)).stderrStream = printLn (msgFormatMissing f) ∧
     containsSub f (msgFormatMissing f) = true ∧
     (∀ c c' : Line → List Line,
        runMain ⟨fs.pathExists, c⟩ (Mode.formatFile f) =
          runMain ⟨fs.pathExists, c'⟩ (Mode.formatFile f))) := by
  have hc := runMain_compare fs f1 f2
  rw [if_pos h1] at hc
  have hfm := runMain_format fs f
  rw [if_pos hf] at hfm
  refine ⟨⟨by rw [hc], by rw [hc], ?_⟩, ⟨by rw [hfm], by rw [hfm], ?_, ?_⟩⟩
  · intro c c'
    rw [runMain_compare ⟨fs.pathExists, c⟩ f1 f2, runMain_compare ⟨fs.pathExists, c'⟩ f1 f2,
      if_pos h1, if_pos h1]
  · unfold msgFormatMissing
    rw [List.append_assoc]
    exact containsSub_middle _ _ _
  · intro c c'
    rw [runMain_format ⟨fs.pathExists, c⟩ f, runMain_format ⟨fs.pathExists, c'⟩ f,
      if_pos hf, if_pos hf]

/-- Witness for the amended C8 over a file system where only `a.env` exists:
compare mode with the first path present and the second missing (the
`or`-branch case), and format mode on `missing.env`; the last conjunct
instantiates content-independence at two different content functions. -/
theorem c8_amended_missing_file_witness :
    (runMain ⟨fun p => p == "a.env".toList, fun _ => []⟩
        (Mode.compareFiles "a.env".toList "gone.env".toList)).exitCode = 1 ∧
    (runMain ⟨fun p => p == "a.env".toList, fun _ => []⟩
        (Mode.compareFiles "a.env".toList "gone.env".toList)).stderrStream =
      printLn msgCompareMissing ∧
    (runMain ⟨fun p => p == "a.env".toList, fun _ => []⟩
        (Mode.formatFile "missing.env".toList)).exitCode = 1 ∧
    (runMain ⟨fun p => p == "a.env".toList, fun _ => []⟩
        (Mode.formatFile "missing.env".toList)).stderrStream =
      printLn (msgFormatMissing "missing.env".toList) ∧
    containsSub "missing.env".toList (msgFormatMissing "missing.env".toList) = true ∧
    runMain ⟨fun p => p == "a.env".toList, fun _ => []⟩
        (Mode.formatFile "missing.env".toList) =
      runMain ⟨fun p => p == "a.env".toList, fun _ => ["X=1".toList]⟩
        (Mode.formatFile "missing.env".toList) :=
  ⟨(c8_amended_missing_file ⟨fun p => p == "a.env".toList, fun _ => []⟩ "a.env".toList
      "gone.env".toList "missing.env".toList (Or.inr (by decide)) (by decide)).1.1,
   (c8_amended_missing_file ⟨fun p => p == "a.env".toList, fun _ => []⟩ "a.env".toList
      "gone.env".toList "missing.env".toList (Or.inr (by decide)) (by decide)).1.2.1,
   (c8_amended_missing_file ⟨fun p => p == "a.env".toList, fun _ => []⟩ "a.env".toList
      "gone.env".toList "missing.env".toList (Or.inr (by decide)) (by decide)).2.1,
   (c8_amended_missing_file ⟨fun p => p == "a.env".toList, fun _ => []⟩ "a.env".toList
      "gone.env".toList "missing.env".toList (Or.inr (by decide)) (by decide)).2.2.1,
   (c8_amended_missing_file ⟨fun p => p == "a.env".toList, fun _ => []⟩ "a.env".toList
      "gone.env".toList "missing.env".toList (Or.inr (by decide)) (by decide)).2.2.2.1,
   (c8_amended_missing_file ⟨fun p => p == "a.env".toList, fun _ => []⟩ "a.env".toList
      "gone.env".toList "missing.env".toList (Or.inr (by decide)) (by decide)).2.2.2.2
     (fun _ => []) (fun _ => ["X=1".toList])⟩
